import Mathlib

/-!
Verification of the agent registry (src/samples/rust/agent_registry.rs).

The registry stores `AgentDefinition` records keyed by a string identifier in a
primary map (`agents : HashMap<String, AgentDefinition>`) and maintains a
secondary index from `Capability` to a vector of identifiers
(`capability_index : HashMap<Capability, Vec<String>>`).

Embedding choices:
  - Each `HashMap` is embedded as an association list with decidable-equality
    keys; `alLookup`, `alInsert`, `alRemove` mirror `get`, `insert`, `remove`.
    Iteration order of a `HashMap` is unspecified, and no verified claim
    depends on it.
  - `u32` priority is embedded as `Nat`: the code only compares priorities
    (never computes with them), and `Nat` order agrees with `u32` order on all
    representable values.
  - `f32` temperature is embedded as `Float`; it is inert payload, never
    inspected by any registry operation.
  - `Result<T, RegistryError>` is `Except RegistryError T`. In the sequential
    semantics the `LockPoisoned` branches are unreachable and the lock
    acquisitions themselves are not modelled; what IS modelled, for the
    concurrency claim, is the decomposition of each mutating operation into
    its two critical sections (`registerPhase1` / `registerPhase2`,
    `unregisterPhase1` / `unregisterPhase2`), exactly the two `{ .. }` blocks
    in the source, each of which holds one `RwLock` writer for its duration
    and is therefore atomic; between the two blocks no lock is held, so other
    threads may run complete critical sections there.
  - `Vec::sort_by_key` is a stable sort by the key; it is embedded as
    `List.mergeSort` on the priority comparison, which is likewise a stable
    sort by that key.
-/

namespace AgentReg

/-- Capabilities that an agent can provide: the closed tags plus the open
string-labelled variant. Derived equality compares `Custom` labels, matching
the derived `PartialEq` in the source. -/
inductive Capability where
  | Coding
  | Testing
  | Review
  | Documentation
  | Planning
  | Research
  | Custom (label : String)
deriving DecidableEq

/-- Metadata for an agent definition (struct `AgentMetadata`). -/
structure AgentMetadata where
  id : String
  name : String
  description : String
  priority : Nat
  capabilities : List Capability
  languages : List String
  model : Option String
  temperature : Float

/-- A complete agent definition including system prompt (struct `AgentDefinition`). -/
structure AgentDefinition where
  metadata : AgentMetadata
  system_prompt : String
  tools : List String

/-- Errors of registry operations (enum `RegistryError`). -/
inductive RegistryError where
  | AgentNotFound (msg : String)
  | AgentAlreadyExists (id : String)
  | InvalidDefinition (reason : String)
  | LockPoisoned
deriving DecidableEq

/-- Association-list embedding of `HashMap::get` (returning the value). -/
def alLookup {α β : Type} [DecidableEq α] (k : α) : List (α × β) → Option β
  | [] => none
  | (k1, v) :: rest => if k1 = k then some v else alLookup k rest

/-- Association-list embedding of `HashMap::insert`: replaces the binding of an
existing key in place, otherwise adds a new binding. -/
def alInsert {α β : Type} [DecidableEq α] (k : α) (v : β) : List (α × β) → List (α × β)
  | [] => [(k, v)]
  | (k1, v1) :: rest => if k1 = k then (k, v) :: rest else (k1, v1) :: alInsert k v rest

/-- Association-list embedding of `HashMap::remove` (the map part; `alLookup`
gives the returned value). -/
def alRemove {α β : Type} [DecidableEq α] (k : α) : List (α × β) → List (α × β)
  | [] => []
  | (k1, v1) :: rest => if k1 = k then rest else (k1, v1) :: alRemove k rest

/-- The registry state: the contents of the two maps guarded by the two
`RwLock`s of struct `AgentRegistry`. -/
structure AgentRegistry where
  agents : List (String × AgentDefinition)
  capability_index : List (Capability × List String)

/-- `AgentRegistry::new()`: both maps empty. -/
def AgentRegistry.new : AgentRegistry := ⟨[], []⟩

/-- The identifier list stored for a capability, defaulting to the empty
vector when the bucket is absent (`index.get(cap).cloned().unwrap_or_default()`). -/
def bucketOf (r : AgentRegistry) (cap : Capability) : List String :=
  (alLookup cap r.capability_index).getD []

/-- First critical section of `register` (lines 117 to 123 of the source):
under the `agents` write lock, fail with `AgentAlreadyExists` if the
identifier is present, otherwise insert the definition. -/
def registerPhase1 (r : AgentRegistry) (agent : AgentDefinition) :
    Except RegistryError Unit × AgentRegistry :=
  let id := agent.metadata.id
  if (alLookup id r.agents).isSome then
    (.error (.AgentAlreadyExists id), r)
  else
    (.ok (), { r with agents := alInsert id agent r.agents })

/-- One step of the `register` index update:
`index.entry(cap).or_insert_with(Vec::new).push(id.clone())`. -/
def pushCap (id : String) (index : List (Capability × List String)) (cap : Capability) :
    List (Capability × List String) :=
  alInsert cap ((alLookup cap index).getD [] ++ [id]) index

/-- Second critical section of `register` (lines 126 to 131 of the source):
under the `capability_index` write lock, push the identifier onto the bucket of
every capability in the list, in list order, creating absent buckets. -/
def registerPhase2 (r : AgentRegistry) (agent : AgentDefinition) : AgentRegistry :=
  { r with capability_index :=
      agent.metadata.capabilities.foldl (pushCap agent.metadata.id) r.capability_index }

/-- `register`, run without interleaving: phase 1 then, on success, phase 2. -/
def register (r : AgentRegistry) (agent : AgentDefinition) :
    Except RegistryError Unit × AgentRegistry :=
  match registerPhase1 r agent with
  | (.error e, r1) => (.error e, r1)
  | (.ok _, r1) => (.ok (), registerPhase2 r1 agent)

/-- `get`: look the identifier up in the primary map and clone the definition,
or fail with `AgentNotFound`. -/
def get (r : AgentRegistry) (id : String) : Except RegistryError AgentDefinition :=
  match alLookup id r.agents with
  | some a => .ok a
  | none => .error (.AgentNotFound id)

/-- The boolean priority comparison used by `result.sort_by_key(|a| a.metadata.priority)`. -/
def priorityLe (a b : AgentDefinition) : Bool :=
  a.metadata.priority ≤ b.metadata.priority

/-- The unsorted candidate list of `find_by_capability`: the bucket ids mapped
through the primary map, silently dropping ids with no primary entry
(`ids.iter().filter_map(|id| agents.get(id).cloned()).collect()`). -/
def candidates (r : AgentRegistry) (cap : Capability) : List AgentDefinition :=
  (bucketOf r cap).filterMap (fun id => alLookup id r.agents)

/-- `find_by_capability`: fetch the bucket, resolve ids through the primary
map, and stable-sort the result by priority (lower first). -/
def find_by_capability (r : AgentRegistry) (cap : Capability) :
    Except RegistryError (List AgentDefinition) :=
  .ok ((candidates r cap).mergeSort priorityLe)

/-- The debug rendering of a capability used in the `get_best_for_capability`
error message (`format!("No agent with capability {:?}", cap)`). -/
def capDebug : Capability → String
  | .Coding => "Coding"
  | .Testing => "Testing"
  | .Review => "Review"
  | .Documentation => "Documentation"
  | .Planning => "Planning"
  | .Research => "Research"
  | .Custom label => "Custom(\"" ++ label ++ "\")"

/-- `get_best_for_capability`: the first element of the `find_by_capability`
result, or `AgentNotFound` when that result is empty. -/
def get_best_for_capability (r : AgentRegistry) (cap : Capability) :
    Except RegistryError AgentDefinition :=
  match find_by_capability r cap with
  | .error e => .error e
  | .ok l =>
    match l with
    | [] => .error (.AgentNotFound ("No agent with capability " ++ capDebug cap))
    | a :: _ => .ok a

/-- First critical section of `unregister` (lines 169 to 172 of the source):
under the `agents` write lock, remove and return the definition, or fail with
`AgentNotFound`. -/
def unregisterPhase1 (r : AgentRegistry) (id : String) :
    Except RegistryError AgentDefinition × AgentRegistry :=
  match alLookup id r.agents with
  | none => (.error (.AgentNotFound id), r)
  | some agent => (.ok agent, { r with agents := alRemove id r.agents })

/-- One step of the `unregister` index update: for one capability,
`if let Some(ids) = index.get_mut(cap) { ids.retain(|i| i != id); }`. -/
def removeCap (id : String) (index : List (Capability × List String)) (cap : Capability) :
    List (Capability × List String) :=
  match alLookup cap index with
  | none => index
  | some ids => alInsert cap (ids.filter (fun i => i ≠ id)) index

/-- Second critical section of `unregister` (lines 175 to 182 of the source):
under the `capability_index` write lock, drop the identifier from the bucket of
every capability of the removed definition. -/
def unregisterPhase2 (r : AgentRegistry) (id : String) (agent : AgentDefinition) :
    AgentRegistry :=
  { r with capability_index :=
      agent.metadata.capabilities.foldl (removeCap id) r.capability_index }

/-- `unregister`, run without interleaving: phase 1 then, on success, phase 2. -/
def unregister (r : AgentRegistry) (id : String) :
    Except RegistryError AgentDefinition × AgentRegistry :=
  match unregisterPhase1 r id with
  | (.error e, r1) => (.error e, r1)
  | (.ok agent, r1) => (.ok agent, unregisterPhase2 r1 id agent)

/-- `list_ids`: the keys of the primary map. -/
def list_ids (r : AgentRegistry) : Except RegistryError (List String) :=
  .ok (r.agents.map Prod.fst)

/-- `count`: the size of the primary map. -/
def count (r : AgentRegistry) : Except RegistryError Nat :=
  .ok r.agents.length

/-- A mutating call issued against the registry, for reasoning about
operation sequences. -/
inductive RegistryOp where
  | reg (d : AgentDefinition)
  | unreg (id : String)

/-- The state transition of one mutating call (run without interleaving). -/
def applyOp (r : AgentRegistry) (op : RegistryOp) : AgentRegistry :=
  match op with
  | .reg d => (register r d).2
  | .unreg id => (unregister r id).2

/-! Concrete agents used as test inputs for witnesses and counterexamples. -/

/-- Builder shorthand, mirroring
`AgentDefinition::new(id, name, prompt).with_capabilities(caps).with_priority(p)`
with the default description, languages, model and temperature. -/
def mkAgent (id : String) (pr : Nat) (caps : List Capability) : AgentDefinition :=
  { metadata := { id := id, name := id, description := "", priority := pr,
                  capabilities := caps, languages := [], model := none, temperature := 0.7 },
    system_prompt := "prompt", tools := [] }

/-- The coder agent of the source test `test_capability_lookup`. -/
def coder : AgentDefinition := mkAgent "coder" 10 [.Coding]

/-- The reviewer agent of the source test `test_capability_lookup`. -/
def reviewer : AgentDefinition := mkAgent "reviewer" 20 [.Review, .Coding]

/-- An agent whose capability list carries a duplicate value. -/
def dupAgent : AgentDefinition := mkAgent "dup" 5 [.Coding, .Coding]

/-- The agent used in the interleaving analysis of the two write locks. -/
def agentA : AgentDefinition := mkAgent "a" 10 [.Coding]

/-- The registry state holding exactly the coder and reviewer agents. -/
def stTwo : AgentRegistry := (register (register AgentRegistry.new coder).2 reviewer).2

/-! Association-list lemmas: the `HashMap` facts the claims rest on. -/

theorem alLookup_alInsert_self {α β : Type} [DecidableEq α] (k : α) (v : β) :
    ∀ l : List (α × β), alLookup k (alInsert k v l) = some v
  | [] => by simp [alInsert, alLookup]
  | (k1, v1) :: rest => by
    by_cases h : k1 = k
    · simp [alInsert, alLookup, h]
    · simp [alInsert, alLookup, h, alLookup_alInsert_self k v rest]

theorem alLookup_alInsert_ne {α β : Type} [DecidableEq α] {k k2 : α} (v : β)
    (h : k2 ≠ k) : ∀ l : List (α × β), alLookup k2 (alInsert k v l) = alLookup k2 l
  | [] => by simp [alInsert, alLookup, Ne.symm h]
  | (k1, v1) :: rest => by
    by_cases h1 : k1 = k
    · subst h1
      simp [alInsert, alLookup, Ne.symm h]
    · simp only [alInsert, if_neg h1, alLookup]
      by_cases h2 : k1 = k2
      · simp [h2]
      · simp [h2, alLookup_alInsert_ne v h rest]

theorem alLookup_alRemove_ne {α β : Type} [DecidableEq α] {k k2 : α}
    (h : k2 ≠ k) : ∀ l : List (α × β), alLookup k2 (alRemove k l) = alLookup k2 l
  | [] => by simp [alRemove]
  | (k1, v1) :: rest => by
    by_cases h1 : k1 = k
    · subst h1
      simp [alRemove, alLookup, Ne.symm h]
    · simp only [alRemove, if_neg h1, alLookup]
      by_cases h2 : k1 = k2
      · simp [h2]
      · simp [h2, alLookup_alRemove_ne h rest]

theorem alLookup_isSome_iff {α β : Type} [DecidableEq α] (k : α) :
    ∀ l : List (α × β), (alLookup k l).isSome ↔ k ∈ l.map Prod.fst
  | [] => by simp [alLookup]
  | (k1, v1) :: rest => by
    by_cases h : k1 = k
    · simp [alLookup, h]
    · simp [alLookup, h, alLookup_isSome_iff k rest, Ne.symm h]

theorem alLookup_eq_none_of_not_mem_keys {α β : Type} [DecidableEq α] {k : α}
    {l : List (α × β)} (h : k ∉ l.map Prod.fst) : alLookup k l = none := by
  have := (alLookup_isSome_iff k l).not.mpr h
  cases hl : alLookup k l with
  | none => rfl
  | some v => exact absurd (by simp [hl]) this

theorem alLookup_alRemove_self {α β : Type} [DecidableEq α] (k : α) :
    ∀ l : List (α × β), (l.map Prod.fst).Nodup → alLookup k (alRemove k l) = none
  | [], _ => rfl
  | (k1, v1) :: rest, hnd => by
    by_cases h : k1 = k
    · subst h
      simp only [alRemove, if_pos rfl]
      exact alLookup_eq_none_of_not_mem_keys (by simpa using (List.nodup_cons.mp hnd).1)
    · simp only [alRemove, if_neg h, alLookup, if_neg h]
      exact alLookup_alRemove_self k rest (List.nodup_cons.mp hnd).2

theorem not_mem_keys_alRemove {α β : Type} [DecidableEq α] (k : α)
    (l : List (α × β)) (hnd : (l.map Prod.fst).Nodup) :
    k ∉ (alRemove k l).map Prod.fst := by
  intro hmem
  have h1 := (alLookup_isSome_iff (β := β) k (alRemove k l)).mpr hmem
  rw [alLookup_alRemove_self k l hnd] at h1
  simp at h1

/-! Claim C1. -/

/-- The final registry state of the interleaving: thread A runs the first
critical section of `register agentA` (primary-map insert), thread B then runs
both critical sections of `unregister "a"` to completion, and thread A finally
runs the second critical section of `register` (the bucket push). Every step
is a complete critical section of the source, so this is a legal schedule of
the two `RwLock`s. -/
def interleavedFinal : AgentRegistry :=
  registerPhase2 (unregister (registerPhase1 AgentRegistry.new agentA).2 "a").2 agentA

/-- Claim C1: the spec demands that register and unregister be mutually
exclusive and that no interleaving leave an identifier in a capability bucket
without a primary-map entry. The code guards the two maps with two separate
locks and releases the first before taking the second, so the schedule behind
`interleavedFinal` is possible: both calls succeed (register succeeds because
its first critical section succeeded and its second cannot fail), yet the
final state has "a" in the Coding bucket and no entry in the primary map —
permanently, not merely mid-mutation. This refutes the claim on the code. -/
theorem C1_two_locks_break_cross_map_atomicity :
    (registerPhase1 AgentRegistry.new agentA).1 = .ok () ∧
    (unregister (registerPhase1 AgentRegistry.new agentA).2 "a").1 = .ok agentA ∧
    bucketOf interleavedFinal Capability.Coding = ["a"] ∧
    alLookup "a" interleavedFinal.agents = none :=
  ⟨rfl, rfl, rfl, rfl⟩

/-! Claim C5. -/

/-- Claim C5: registering an identifier that is already present fails with
`AgentAlreadyExists`, changes nothing (the returned state is the input state),
and the original record is still retrievable via `get`. -/
theorem C5_register_existing_fails_without_change
    (r : AgentRegistry) (d d0 : AgentDefinition)
    (h : alLookup d.metadata.id r.agents = some d0) :
    register r d = (.error (.AgentAlreadyExists d.metadata.id), r) ∧
    get r d.metadata.id = .ok d0 := by
  constructor
  · unfold register registerPhase1
    simp [h]
  · unfold get
    rw [h]

/-- Witness for C5: in the one-agent state, re-registering the coder id fails
with `AgentAlreadyExists` and the original coder record is still returned. -/
theorem C5_witness :
    alLookup coder.metadata.id (register AgentRegistry.new coder).2.agents = some coder ∧
    (register (register AgentRegistry.new coder).2 coder =
      (.error (.AgentAlreadyExists coder.metadata.id), (register AgentRegistry.new coder).2) ∧
     get (register AgentRegistry.new coder).2 coder.metadata.id = .ok coder) :=
  ⟨rfl, C5_register_existing_fails_without_change _ coder coder rfl⟩

/-! Claim C9. -/

/-- Claim C9: unregistering an absent identifier fails with `AgentNotFound`
and leaves the registry state unchanged, hence count, the identifier list and
every capability bucket are unchanged. -/
theorem C9_unregister_missing_fails_without_change
    (r : AgentRegistry) (id : String)
    (h : alLookup id r.agents = none) :
    unregister r id = (.error (.AgentNotFound id), r) ∧
    count (unregister r id).2 = count r ∧
    list_ids (unregister r id).2 = list_ids r ∧
    ∀ cap, bucketOf (unregister r id).2 cap = bucketOf r cap := by
  have hmain : unregister r id = (.error (.AgentNotFound id), r) := by
    unfold unregister unregisterPhase1
    rw [h]
  exact ⟨hmain, by rw [hmain], by rw [hmain], fun cap => by rw [hmain]⟩

/-- Witness for C9: unregistering "ghost" from the two-agent state fails with
`AgentNotFound` and changes nothing. -/
theorem C9_witness :
    alLookup "ghost" stTwo.agents = none ∧
    (unregister stTwo "ghost" = (.error (.AgentNotFound "ghost"), stTwo) ∧
     count (unregister stTwo "ghost").2 = count stTwo ∧
     list_ids (unregister stTwo "ghost").2 = list_ids stTwo ∧
     ∀ cap, bucketOf (unregister stTwo "ghost").2 cap = bucketOf stTwo cap) :=
  ⟨rfl, C9_unregister_missing_fails_without_change stTwo "ghost" rfl⟩

/-! Claim C2: what one register call does to the buckets. -/

theorem alLookup_pushCap_getD (id : String) (idx : List (Capability × List String))
    (c c1 : Capability) :
    (alLookup c (pushCap id idx c1)).getD [] =
      if c1 = c then (alLookup c idx).getD [] ++ [id] else (alLookup c idx).getD [] := by
  unfold pushCap
  by_cases h : c1 = c
  · subst h
    simp [alLookup_alInsert_self]
  · simp [h, alLookup_alInsert_ne _ (Ne.symm h)]

theorem foldl_pushCap_getD (id : String) :
    ∀ (caps : List Capability) (idx : List (Capability × List String)) (c : Capability),
      (alLookup c (caps.foldl (pushCap id) idx)).getD [] =
        (alLookup c idx).getD [] ++ List.replicate (caps.count c) id
  | [], idx, c => by simp
  | c1 :: caps, idx, c => by
    rw [List.foldl_cons, foldl_pushCap_getD id caps (pushCap id idx c1) c,
      alLookup_pushCap_getD]
    by_cases h : c1 = c
    · subst h
      simp [List.count_cons, List.replicate_succ, List.append_assoc]
    · simp [h, List.count_cons]

/-- Counterexample to claim C2: registering `dupAgent`, whose capability list
is `[Coding, Coding]`, succeeds and leaves its identifier TWICE in the Coding
bucket — the loop in `register` pushes once per occurrence, with no
deduplication, so the identifier does not occur at most once per bucket. -/
theorem C2_counterexample :
    (register AgentRegistry.new dupAgent).1 = .ok () ∧
    bucketOf (register AgentRegistry.new dupAgent).2 Capability.Coding = ["dup", "dup"] ∧
    ¬ (bucketOf (register AgentRegistry.new dupAgent).2 Capability.Coding).count "dup" ≤ 1 := by
  refine ⟨rfl, rfl, ?_⟩
  decide

/-- Claim C2 (amended): a successful register appends the identifier to the
bucket of each capability once PER OCCURRENCE in the capability list, i.e.
bucket c gains `count c capabilities` copies of the identifier; when the
capability list is duplicate-free this is exactly one append per capability of
the list, and buckets of other capabilities are unchanged (their occurrence
count is zero). -/
theorem C2_register_appends_once_per_occurrence
    (r : AgentRegistry) (d : AgentDefinition)
    (hfresh : alLookup d.metadata.id r.agents = none) :
    (register r d).1 = .ok () ∧
    (∀ cap, bucketOf (register r d).2 cap =
        bucketOf r cap ++ List.replicate (d.metadata.capabilities.count cap) d.metadata.id) ∧
    (d.metadata.capabilities.Nodup →
      ∀ cap ∈ d.metadata.capabilities,
        bucketOf (register r d).2 cap = bucketOf r cap ++ [d.metadata.id]) := by
  have h1 : register r d =
      (.ok (), registerPhase2 { r with agents := alInsert d.metadata.id d r.agents } d) := by
    unfold register registerPhase1
    simp [hfresh]
  have h2 : ∀ cap, bucketOf (register r d).2 cap =
      bucketOf r cap ++ List.replicate (d.metadata.capabilities.count cap) d.metadata.id := by
    intro cap
    rw [h1]
    unfold bucketOf registerPhase2
    exact foldl_pushCap_getD d.metadata.id d.metadata.capabilities _ cap
  refine ⟨by rw [h1], h2, ?_⟩
  intro hnd cap hcap
  rw [h2 cap, List.count_eq_one_of_mem hnd hcap]
  rfl

/-- Witness for the amended C2 at a concrete input: registering `dupAgent`
into the empty registry. -/
theorem C2_amended_witness :
    alLookup dupAgent.metadata.id AgentRegistry.new.agents = none ∧
    ((register AgentRegistry.new dupAgent).1 = .ok () ∧
     (∀ cap, bucketOf (register AgentRegistry.new dupAgent).2 cap =
        bucketOf AgentRegistry.new cap ++
          List.replicate (dupAgent.metadata.capabilities.count cap) dupAgent.metadata.id) ∧
     (dupAgent.metadata.capabilities.Nodup →
      ∀ cap ∈ dupAgent.metadata.capabilities,
        bucketOf (register AgentRegistry.new dupAgent).2 cap =
          bucketOf AgentRegistry.new cap ++ [dupAgent.metadata.id])) :=
  ⟨rfl, C2_register_appends_once_per_occurrence AgentRegistry.new dupAgent rfl⟩

/-! Claims C3 and C4: capability queries. -/

theorem priorityLe_trans (a b c : AgentDefinition)
    (hab : priorityLe a b = true) (hbc : priorityLe b c = true) :
    priorityLe a c = true := by
  simp only [priorityLe, decide_eq_true_eq] at hab hbc ⊢
  omega

theorem priorityLe_total (a b : AgentDefinition) :
    (priorityLe a b || priorityLe b a) = true := by
  simp only [priorityLe, Bool.or_eq_true, decide_eq_true_eq]
  omega

/-- Claim C3: `find_by_capability` succeeds on every state, and on a state
satisfying the cross-map invariant for the queried capability (an id is in
the bucket iff it resolves to a stored definition whose capability list holds
that capability — the invariant every sequentially reached state enjoys) the
returned sequence holds exactly the registered definitions with that
capability, sorted ascending by priority, and is empty (not an error) when no
registered definition has the capability. -/
theorem C3_find_returns_sorted_matches (r : AgentRegistry) (cap : Capability)
    (hinv : ∀ id, id ∈ bucketOf r cap ↔
        ∃ d, alLookup id r.agents = some d ∧ cap ∈ d.metadata.capabilities) :
    ∃ l, find_by_capability r cap = .ok l ∧
      (∀ d, d ∈ l ↔ ∃ id, alLookup id r.agents = some d ∧ cap ∈ d.metadata.capabilities) ∧
      List.Sorted (fun a b : AgentDefinition =>
        a.metadata.priority ≤ b.metadata.priority) l ∧
      ((∀ id d, alLookup id r.agents = some d → cap ∉ d.metadata.capabilities) →
        l = []) := by
  have hmem : ∀ d, d ∈ (candidates r cap).mergeSort priorityLe ↔
      ∃ id, alLookup id r.agents = some d ∧ cap ∈ d.metadata.capabilities := by
    intro d
    rw [List.mem_mergeSort]
    unfold candidates
    rw [List.mem_filterMap]
    constructor
    · rintro ⟨id, hid, hlk⟩
      rcases (hinv id).mp hid with ⟨d2, hlk2, hcap2⟩
      have hd : d = d2 := Option.some_inj.mp (hlk.symm.trans hlk2)
      exact ⟨id, hlk, hd ▸ hcap2⟩
    · rintro ⟨id, hlk, hcap⟩
      exact ⟨id, (hinv id).mpr ⟨d, hlk, hcap⟩, hlk⟩
  refine ⟨(candidates r cap).mergeSort priorityLe, rfl, hmem, ?_, ?_⟩
  · have hp := List.sorted_mergeSort priorityLe_trans priorityLe_total (candidates r cap)
    exact hp.imp (fun h => by simpa [priorityLe, decide_eq_true_eq] using h)
  · intro hnone
    rw [List.eq_nil_iff_forall_not_mem]
    intro d hd
    rcases (hmem d).mp hd with ⟨id, hlk, hcap⟩
    exact hnone id d hlk hcap

/-- The cross-map invariant of the two-agent state at the Coding capability,
used to feed the C3 witness. -/
theorem stTwo_coding_inv : ∀ id, id ∈ bucketOf stTwo Capability.Coding ↔
    ∃ d, alLookup id stTwo.agents = some d ∧
      Capability.Coding ∈ d.metadata.capabilities := by
  intro id
  have hb : bucketOf stTwo Capability.Coding = ["coder", "reviewer"] := rfl
  have ha : stTwo.agents = [("coder", coder), ("reviewer", reviewer)] := rfl
  rw [hb, ha]
  constructor
  · intro hid
    rcases (by simpa using hid : id = "coder" ∨ id = "reviewer") with h | h
    · subst h
      exact ⟨coder, rfl, by simp [coder, mkAgent]⟩
    · subst h
      exact ⟨reviewer, rfl, by simp [reviewer, mkAgent]⟩
  · rintro ⟨d, hlk, hcap⟩
    unfold alLookup at hlk
    split at hlk
    · simp_all
    · unfold alLookup at hlk
      split at hlk
      · simp_all
      · simp [alLookup] at hlk

/-- Witness for C3 at the two-agent state of the source test, queried at
Coding. -/
theorem C3_witness :
    (∀ id, id ∈ bucketOf stTwo Capability.Coding ↔
        ∃ d, alLookup id stTwo.agents = some d ∧
          Capability.Coding ∈ d.metadata.capabilities) ∧
    (∃ l, find_by_capability stTwo Capability.Coding = .ok l ∧
      (∀ d, d ∈ l ↔ ∃ id, alLookup id stTwo.agents = some d ∧
          Capability.Coding ∈ d.metadata.capabilities) ∧
      List.Sorted (fun a b : AgentDefinition =>
        a.metadata.priority ≤ b.metadata.priority) l ∧
      ((∀ id d, alLookup id stTwo.agents = some d →
          Capability.Coding ∉ d.metadata.capabilities) → l = [])) :=
  ⟨stTwo_coding_inv, C3_find_returns_sorted_matches stTwo Capability.Coding stTwo_coding_inv⟩

/-- Stability of the embedded `sort_by_key`: filtering the sorted list down to
any single priority value gives back exactly the same subsequence of the
input, in input order. -/
theorem stable_filter_mergeSort (l : List AgentDefinition) (p : Nat) :
    (l.mergeSort priorityLe).filter (fun d => d.metadata.priority == p) =
      l.filter (fun d => d.metadata.priority == p) := by
  have hpair : (l.filter (fun d => d.metadata.priority == p)).Pairwise
      (fun a b => priorityLe a b = true) := by
    apply List.pairwise_of_forall_mem_list
    intro a ha b hb
    have ha2 := (List.mem_filter.mp ha).2
    have hb2 := (List.mem_filter.mp hb).2
    simp only [beq_iff_eq] at ha2 hb2
    simp [priorityLe, ha2, hb2]
  have hsub : (l.filter (fun d => d.metadata.priority == p)).Sublist
      (l.mergeSort priorityLe) :=
    List.sublist_mergeSort priorityLe_trans priorityLe_total hpair (List.filter_sublist l)
  have hsub2 := hsub.filter (fun d => d.metadata.priority == p)
  have hidem : (l.filter (fun d => d.metadata.priority == p)).filter
      (fun d => d.metadata.priority == p) =
      l.filter (fun d => d.metadata.priority == p) := by
    rw [List.filter_filter]
    simp
  rw [hidem] at hsub2
  have hlen : ((l.mergeSort priorityLe).filter
      (fun d => d.metadata.priority == p)).length =
      (l.filter (fun d => d.metadata.priority == p)).length :=
    ((List.mergeSort_perm l priorityLe).filter _).length_eq
  exact (hsub2.eq_of_length hlen.symm).symm

/-- Claim C4: the tie-break among equal-priority definitions is stable (the
sorted result restricted to any one priority value equals the unsorted
candidate list — bucket order, i.e. registration order — restricted to that
value) and the query is deterministic: the result is a function of the state,
so two calls with no intervening mutation return the identical sequence. -/
theorem C4_ties_stable_and_deterministic (r : AgentRegistry) (cap : Capability) :
    find_by_capability r cap = .ok ((candidates r cap).mergeSort priorityLe) ∧
    (∀ p : Nat, ((candidates r cap).mergeSort priorityLe).filter
          (fun d => d.metadata.priority == p) =
        (candidates r cap).filter (fun d => d.metadata.priority == p)) ∧
    find_by_capability r cap = find_by_capability r cap :=
  ⟨rfl, fun p => stable_filter_mergeSort (candidates r cap) p, rfl⟩

/-! Claim C6: register followed by any operations that do not unregister the
identifier, then get. -/

theorem alLookup_agents_applyOp_preserved (i : String) (d : AgentDefinition)
    (r : AgentRegistry) (op : RegistryOp) (hop : op ≠ .unreg i)
    (h : alLookup i r.agents = some d) :
    alLookup i (applyOp r op).agents = some d := by
  cases op with
  | reg d2 =>
    unfold applyOp register registerPhase1 registerPhase2
    by_cases hc : (alLookup d2.metadata.id r.agents).isSome
    · simp [hc, h]
    · have hne : i ≠ d2.metadata.id := by
        intro he
        rw [← he] at hc
        simp [h] at hc
      simp only [hc, Bool.false_eq_true, if_false]
      show alLookup i (alInsert d2.metadata.id d2 r.agents) = some d
      rw [alLookup_alInsert_ne _ hne, h]
  | unreg j =>
    have hne : i ≠ j := by
      intro he
      exact hop (by rw [he])
    unfold applyOp unregister unregisterPhase1 unregisterPhase2
    cases hj : alLookup j r.agents with
    | none => simpa [hj] using h
    | some a2 =>
      simp only [hj]
      show alLookup i (alRemove j r.agents) = some d
      rw [alLookup_alRemove_ne hne, h]

theorem alLookup_agents_foldl_preserved (i : String) (d : AgentDefinition) :
    ∀ (ops : List RegistryOp) (r : AgentRegistry),
      (∀ op ∈ ops, op ≠ .unreg i) → alLookup i r.agents = some d →
      alLookup i (ops.foldl applyOp r).agents = some d
  | [], _, _, h => h
  | op :: ops, r, hops, h => by
    rw [List.foldl_cons]
    exact alLookup_agents_foldl_preserved i d ops (applyOp r op)
      (fun o ho => hops o (List.mem_cons_of_mem _ ho))
      (alLookup_agents_applyOp_preserved i d r op (hops op (List.mem_cons_self _ _)) h)

/-- Claim C6: after a successful register of `d` and any further sequence of
mutating calls none of which is an unregister of its identifier, `get` on the
identifier returns exactly the registered definition `d`, field for field. -/
theorem C6_register_then_get_roundtrip (r : AgentRegistry) (d : AgentDefinition)
    (ops : List RegistryOp)
    (hfresh : alLookup d.metadata.id r.agents = none)
    (hnu : ∀ op ∈ ops, op ≠ .unreg d.metadata.id) :
    get (ops.foldl applyOp (register r d).2) d.metadata.id = .ok d := by
  have h0 : alLookup d.metadata.id (register r d).2.agents = some d := by
    unfold register registerPhase1 registerPhase2
    simp only [hfresh, Option.isSome_none, Bool.false_eq_true, if_false]
    show alLookup d.metadata.id (alInsert d.metadata.id d r.agents) = some d
    exact alLookup_alInsert_self _ _ _
  unfold get
  rw [alLookup_agents_foldl_preserved d.metadata.id d ops (register r d).2 hnu h0]

/-- Witness for C6: register the coder into the empty registry, then
unregister an unrelated id; get still returns the coder record. -/
theorem C6_witness :
    alLookup coder.metadata.id AgentRegistry.new.agents = none ∧
    (∀ op ∈ [RegistryOp.unreg "ghost"], op ≠ RegistryOp.unreg coder.metadata.id) ∧
    get ([RegistryOp.unreg "ghost"].foldl applyOp
      (register AgentRegistry.new coder).2) coder.metadata.id = .ok coder := by
  have hnu : ∀ op ∈ [RegistryOp.unreg "ghost"],
      op ≠ RegistryOp.unreg coder.metadata.id := by
    intro op hop
    simp only [List.mem_singleton] at hop
    subst hop
    simp only [ne_eq, RegistryOp.unreg.injEq]
    decide
  exact ⟨rfl, hnu,
    C6_register_then_get_roundtrip AgentRegistry.new coder [RegistryOp.unreg "ghost"] rfl hnu⟩

/-! Claim C7. -/

/-- Claim C7: `get_best_for_capability` returns exactly the first element of
the `find_by_capability` result when that result is non-empty, and fails with
the not-found error exactly when that result is empty. -/
theorem C7_best_is_head_of_find (r : AgentRegistry) (cap : Capability) :
    ∃ l, find_by_capability r cap = .ok l ∧
      (∀ a rest, l = a :: rest → get_best_for_capability r cap = .ok a) ∧
      ((∃ msg, get_best_for_capability r cap = .error (.AgentNotFound msg)) ↔ l = []) := by
  have hbest : ∀ a rest, (candidates r cap).mergeSort priorityLe = a :: rest →
      get_best_for_capability r cap = .ok a := by
    intro a rest hl
    unfold get_best_for_capability find_by_capability
    rw [hl]
  have hempty : (candidates r cap).mergeSort priorityLe = [] →
      get_best_for_capability r cap =
        .error (.AgentNotFound ("No agent with capability " ++ capDebug cap)) := by
    intro hl
    unfold get_best_for_capability find_by_capability
    rw [hl]
  refine ⟨(candidates r cap).mergeSort priorityLe, rfl, hbest, ?_, ?_⟩
  · rintro ⟨msg, hmsg⟩
    cases hl : (candidates r cap).mergeSort priorityLe with
    | nil => rfl
    | cons a rest =>
      rw [hbest a rest hl] at hmsg
      cases hmsg
  · intro hl
    exact ⟨_, hempty hl⟩

/-- Witness for C7 at the two-agent state queried at Coding (where the result
is non-empty) — a direct instantiation, since C7 has no standalone
hypotheses beyond the implications inside its conclusion. -/
theorem C7_witness :
    ∃ l, find_by_capability stTwo Capability.Coding = .ok l ∧
      (∀ a rest, l = a :: rest → get_best_for_capability stTwo Capability.Coding = .ok a) ∧
      ((∃ msg, get_best_for_capability stTwo Capability.Coding =
          .error (.AgentNotFound msg)) ↔ l = []) :=
  C7_best_is_head_of_find stTwo Capability.Coding

/-! Claim C8. -/

/-- Claim C8: unregistering a present identifier returns the removed
definition; afterwards get fails with the not-found error, the identifier list
no longer holds the identifier, and no capability query returns a definition
with that identifier (in particular none for the capabilities the removed
definition held). The two hypotheses besides presence are the `HashMap`
representation invariant (keys occur once) and the registry invariant that a
stored definition is keyed by its own metadata identifier. -/
theorem C8_unregister_removes_everywhere (r : AgentRegistry) (id : String)
    (a : AgentDefinition)
    (hmem : alLookup id r.agents = some a)
    (hnd : (r.agents.map Prod.fst).Nodup)
    (hwk : ∀ k d, alLookup k r.agents = some d → d.metadata.id = k) :
    ∃ r2, unregister r id = (.ok a, r2) ∧
      get r2 id = .error (.AgentNotFound id) ∧
      (∃ ids, list_ids r2 = .ok ids ∧ id ∉ ids) ∧
      (∀ cap, cap ∈ a.metadata.capabilities →
        ∀ l, find_by_capability r2 cap = .ok l → ∀ d ∈ l, d.metadata.id ≠ id) := by
  have hagents : (unregister r id).2.agents = alRemove id r.agents := by
    unfold unregister unregisterPhase1 unregisterPhase2
    simp [hmem]
  have hpair : unregister r id = (.ok a, (unregister r id).2) := by
    unfold unregister unregisterPhase1
    simp [hmem]
  refine ⟨(unregister r id).2, hpair, ?_, ?_, ?_⟩
  · unfold get
    rw [hagents, alLookup_alRemove_self id r.agents hnd]
  · refine ⟨(unregister r id).2.agents.map Prod.fst, rfl, ?_⟩
    rw [hagents]
    exact not_mem_keys_alRemove id r.agents hnd
  · intro cap _ l hl d hd hid
    have hl2 : l = (candidates (unregister r id).2 cap).mergeSort priorityLe := by
      unfold find_by_capability at hl
      exact (Except.ok.inj hl).symm
    subst hl2
    rcases List.mem_filterMap.mp (List.mem_mergeSort.mp hd) with ⟨k, _, hlk⟩
    rw [hagents] at hlk
    by_cases hki : k = id
    · subst hki
      rw [alLookup_alRemove_self k r.agents hnd] at hlk
      cases hlk
    · rw [alLookup_alRemove_ne hki] at hlk
      exact hki ((hwk k d hlk).symm.trans hid)

/-- The two-agent state stores each definition under its own metadata
identifier. -/
theorem stTwo_wellKeyed : ∀ k d, alLookup k stTwo.agents = some d → d.metadata.id = k := by
  intro k d h
  have ha : stTwo.agents = [("coder", coder), ("reviewer", reviewer)] := rfl
  rw [ha] at h
  unfold alLookup at h
  split at h
  · next heq =>
    cases Option.some_inj.mp h
    rw [← heq]
    rfl
  · unfold alLookup at h
    split at h
    · next heq =>
      cases Option.some_inj.mp h
      rw [← heq]
      rfl
    · simp [alLookup] at h

/-- Witness for C8: unregistering the coder from the two-agent state. -/
theorem C8_witness :
    alLookup "coder" stTwo.agents = some coder ∧
    (stTwo.agents.map Prod.fst).Nodup ∧
    (∀ k d, alLookup k stTwo.agents = some d → d.metadata.id = k) ∧
    (∃ r2, unregister stTwo "coder" = (.ok coder, r2) ∧
      get r2 "coder" = .error (.AgentNotFound "coder") ∧
      (∃ ids, list_ids r2 = .ok ids ∧ "coder" ∉ ids) ∧
      (∀ cap, cap ∈ coder.metadata.capabilities →
        ∀ l, find_by_capability r2 cap = .ok l →
          ∀ d ∈ l, d.metadata.id ≠ "coder")) := by
  have hnd : (stTwo.agents.map Prod.fst).Nodup := by
    rw [show stTwo.agents.map Prod.fst = ["coder", "reviewer"] from rfl]
    decide
  exact ⟨rfl, hnd, stTwo_wellKeyed,
    C8_unregister_removes_everywhere stTwo "coder" coder rfl hnd stTwo_wellKeyed⟩

/-! Claim C10. -/

theorem length_filterMap_eq_length_filter {α β : Type} (f : α → Option β) :
    ∀ l : List α, (l.filterMap f).length = (l.filter (fun x => (f x).isSome)).length
  | [] => rfl
  | x :: l => by
    cases hf : f x with
    | none => simp [List.filterMap_cons, List.filter_cons, hf,
        length_filterMap_eq_length_filter f l]
    | some b => simp [List.filterMap_cons, List.filter_cons, hf,
        length_filterMap_eq_length_filter f l]

/-- Claim C10: when a bucket holds an identifier with no primary-map entry,
`find_by_capability` still succeeds, every returned definition is a value
actually stored in the primary map (witnessed by some bucket id), the result
length counts exactly the resolvable bucket ids, and it is strictly shorter
than the bucket — the dangling identifier is silently skipped, producing
neither an error nor a phantom element. -/
theorem C10_dangling_bucket_id_skipped (r : AgentRegistry) (cap : Capability)
    (id : String) (hb : id ∈ bucketOf r cap)
    (hd : alLookup id r.agents = none) :
    ∃ l, find_by_capability r cap = .ok l ∧
      l.length = ((bucketOf r cap).filter
        (fun i => (alLookup i r.agents).isSome)).length ∧
      (∀ d ∈ l, ∃ i ∈ bucketOf r cap, alLookup i r.agents = some d) ∧
      l.length < (bucketOf r cap).length := by
  refine ⟨(candidates r cap).mergeSort priorityLe, rfl, ?_, ?_, ?_⟩
  · rw [List.length_mergeSort]
    exact length_filterMap_eq_length_filter _ _
  · intro d hd2
    exact List.mem_filterMap.mp (List.mem_mergeSort.mp hd2)
  · rw [List.length_mergeSort]
    unfold candidates
    rw [length_filterMap_eq_length_filter]
    refine Nat.lt_of_le_of_ne (List.length_filter_le _ _) (fun heq => ?_)
    have := List.filter_length_eq_length.mp heq id hb
    simp [hd] at this

/-- A state with a dangling bucket entry: the Coding bucket holds "ghost" but
the primary map is empty. Reachable by the interleaving shown for claim C1. -/
def brokenState : AgentRegistry :=
  { agents := [], capability_index := [(Capability.Coding, ["ghost"])] }

/-- Witness for C10 at the dangling-id state. -/
theorem C10_witness :
    "ghost" ∈ bucketOf brokenState Capability.Coding ∧
    alLookup "ghost" brokenState.agents = none ∧
    (∃ l, find_by_capability brokenState Capability.Coding = .ok l ∧
      l.length = ((bucketOf brokenState Capability.Coding).filter
        (fun i => (alLookup i brokenState.agents).isSome)).length ∧
      (∀ d ∈ l, ∃ i ∈ bucketOf brokenState Capability.Coding,
        alLookup i brokenState.agents = some d) ∧
      l.length < (bucketOf brokenState Capability.Coding).length) := by
  have hb : "ghost" ∈ bucketOf brokenState Capability.Coding := by
    rw [show bucketOf brokenState Capability.Coding = ["ghost"] from rfl]
    decide
  exact ⟨hb, rfl,
    C10_dangling_bucket_id_skipped brokenState Capability.Coding "ghost" hb rfl⟩

end AgentReg
